import Mathlib

/-!
Verification development for the EPUB ingestion pipeline of `reader3.py`
(hrdkdev/hreader).  Python strings are modelled as `List Char`, Python
dicts as insertion-ordered association lists with in-place update
(matching CPython dict semantics), and parsed HTML documents
(BeautifulSoup trees) as lists of `HNode` trees.  Byte strings are
modelled as `List Nat`.
-/

set_option maxRecDepth 4000

namespace Reader3

/-- Python strings, modelled as lists of characters. -/
abbrev Str := List Char

/-- Turn a Lean string literal into the `Str` model. -/
def str (s : String) : Str := s.data

/-- Python dict assignment `m[k] = v`: replace in place if the key is
present, otherwise append (CPython dicts preserve insertion order). -/
def dictSet {α : Type} : List (Str × α) → Str → α → List (Str × α)
  | [], k, v => [(k, v)]
  | (k', v') :: rest, k, v =>
    if k' = k then (k, v) :: rest else (k', v') :: dictSet rest k v

/-- Python dict lookup `m.get(k)`: first (hence unique) binding of `k`. -/
def dictGet {α : Type} : List (Str × α) → Str → Option α
  | [], _ => none
  | (k', v) :: rest, k => if k' = k then some v else dictGet rest k

/-- `os.path.basename`: the part of the path after the last `/`. -/
def basename (s : Str) : Str := (s.reverse.takeWhile (· ≠ '/')).reverse

/-- Python `str.strip()`: remove leading and trailing whitespace. -/
def pyStrip (s : Str) : Str :=
  ((s.dropWhile Char.isWhitespace).reverse.dropWhile Char.isWhitespace).reverse

/-- Value of a hexadecimal digit character, if it is one. -/
def hexDigit? (c : Char) : Option Nat :=
  if c.isDigit then some (c.toNat - '0'.toNat)
  else if 'a' ≤ c ∧ c ≤ 'f' then some (c.toNat - 'a'.toNat + 10)
  else if 'A' ≤ c ∧ c ≤ 'F' then some (c.toNat - 'A'.toNat + 10)
  else none

/-- `urllib.parse.unquote`, at the ASCII level: decode `%XX` escapes
(multi-byte UTF-8 sequences are out of scope for the claims below). -/
def pyUnquote : Str → Str
  | [] => []
  | '%' :: a :: b :: rest =>
    match hexDigit? a, hexDigit? b with
    | some x, some y => Char.ofNat (16 * x + y) :: pyUnquote rest
    | _, _ => '%' :: pyUnquote (a :: b :: rest)
  | c :: rest => c :: pyUnquote rest

/-- The filename sanitization of `process_epub` step 4:
`"".join([c for c in f if c.isalpha() or c.isdigit() or c in "._-"]).strip()`. -/
def sanitizeName (s : Str) : Str :=
  pyStrip (s.filter (fun c => c.isAlpha || c.isDigit || c == '.' || c == '_' || c == '-'))

/-- Python `s.split(sep)` for a one-character separator: split on every
occurrence, keeping empty segments; always at least one segment. -/
def splitOnChar (sep : Char) : Str → List Str
  | [] => [[]]
  | c :: cs =>
    if c = sep then [] :: splitOnChar sep cs
    else
      match splitOnChar sep cs with
      | [] => [[c]]
      | w :: ws => (c :: w) :: ws

/-- Accumulator loop behind `pySplit` (Python `str.split()` with no
arguments): `acc` holds the reversed current word. -/
def pySplitAux : Str → Str → List Str
  | [], acc => if acc = [] then [] else [acc.reverse]
  | c :: cs, acc =>
    if c.isWhitespace then
      if acc = [] then pySplitAux cs [] else acc.reverse :: pySplitAux cs []
    else pySplitAux cs (c :: acc)

/-- Python `str.split()`: split on whitespace runs, dropping empties. -/
def pySplit (s : Str) : List Str := pySplitAux s []

/-- Python `sep.join(words)` for a one-character separator. -/
def joinSep (c : Char) : List Str → Str
  | [] => []
  | [s] => s
  | s :: rest => s ++ c :: joinSep c rest

/-- Fuel-driven loop behind `replaceAll`; the fuel is an upper bound on
the number of characters still to be consumed. -/
def replaceAllAux (pat repl : Str) : Nat → Str → Str
  | 0, s => s
  | _ + 1, [] => []
  | fuel + 1, c :: rest =>
    if pat ≠ [] ∧ pat.isPrefixOf (c :: rest) then
      repl ++ replaceAllAux pat repl fuel ((c :: rest).drop pat.length)
    else c :: replaceAllAux pat repl fuel rest

/-- Python `s.replace(pat, repl)`: left-to-right, non-overlapping
replacement of every occurrence (for nonempty `pat`). -/
def replaceAll (pat repl s : Str) : Str := replaceAllAux pat repl s.length s

/-- Loop behind `pyTitle`; the flag records whether the previous
character was cased (a letter). -/
def pyTitleAux : Str → Bool → Str
  | [], _ => []
  | c :: rest, prevCased =>
    (if prevCased then c.toLower else c.toUpper) :: pyTitleAux rest c.isAlpha

/-- Python `str.title()`: first character of every letter run is
uppercased, the rest lowercased. -/
def pyTitle (s : Str) : Str := pyTitleAux s false

/-! ## HTML documents (BeautifulSoup trees)

A parsed document is a forest of nodes.  `HForest` is an inlined list
of `HNode` (a mutual inductive rather than `List HNode`, so that
structural recursion over the trees reduces in the kernel). -/

mutual
/-- A node of a parsed HTML document: an element with its attribute
dict and children, a text node, or a comment node. -/
inductive HNode where
  | tag (name : Str) (attrs : List (Str × Str)) (children : HForest)
  | text (s : Str)
  | comment (s : Str)
/-- A sequence of sibling HTML nodes. -/
inductive HForest where
  | nil
  | cons (n : HNode) (rest : HForest)
end

/-- Build an `HForest` from a list of nodes (for concrete examples). -/
def HForest.ofList : List HNode → HForest
  | [] => .nil
  | n :: rest => .cons n (HForest.ofList rest)

/-- All `NavigableString` contents of a forest, in document order (the
strings BeautifulSoup's `get_text` walks over). -/
def nodesTexts : HForest → List Str
  | .nil => []
  | .cons (.text s) rest => s :: nodesTexts rest
  | .cons (.comment s) rest => s :: nodesTexts rest
  | .cons (.tag _ _ ch) rest => nodesTexts ch ++ nodesTexts rest

/-- `soup.get_text(separator=" ")`: all strings joined by one space. -/
def get_text (ns : HForest) : Str := joinSep ' ' (nodesTexts ns)

/-- `extract_plain_text` of reader3.py:
`text = soup.get_text(separator=" "); return " ".join(text.split())`. -/
def extract_plain_text (ns : HForest) : Str := joinSep ' ' (pySplit (get_text ns))

/-- The element names removed by `clean_html_content` (the seven-name
removal list plus the separate `input` pass; both remove whole
subtrees, so one recursive pass is equivalent). -/
def removedTags : List Str :=
  [str "script", str "style", str "iframe", str "video", str "nav",
   str "form", str "button", str "input"]

/-- `clean_html_content`: drop the removed elements (as whole subtrees)
and all comment nodes, everywhere in the forest. -/
def clean_html_content : HForest → HForest
  | .nil => .nil
  | .cons (.text s) rest => .cons (.text s) (clean_html_content rest)
  | .cons (.comment _) rest => clean_html_content rest
  | .cons (.tag n a ch) rest =>
    if n ∈ removedTags then clean_html_content rest
    else .cons (.tag n a (clean_html_content ch)) (clean_html_content rest)

/-- The `src` rewrite applied to one `img` element's attribute dict
(process_epub step 6A): URL-decode the `src`, then look up the decoded
path, else its basename, in the image map; leave it untouched if
neither resolves. -/
def rewriteSrc (image_map : List (Str × Str)) (attrs : List (Str × Str)) : List (Str × Str) :=
  let src := (dictGet attrs (str "src")).getD []
  if src = [] then attrs
  else
    let src_decoded := pyUnquote src
    let filename := basename src_decoded
    match dictGet image_map src_decoded with
    | some p => dictSet attrs (str "src") p
    | none =>
      match dictGet image_map filename with
      | some p => dictSet attrs (str "src") p
      | none => attrs

/-- process_epub step 6A: rewrite the `src` of every `img` element. -/
def rewriteImgs (image_map : List (Str × Str)) : HForest → HForest
  | .nil => .nil
  | .cons (.tag n a ch) rest =>
    .cons (.tag n (if n = str "img" then rewriteSrc image_map a else a)
      (rewriteImgs image_map ch)) (rewriteImgs image_map rest)
  | .cons x rest => .cons x (rewriteImgs image_map rest)

/-- `soup.find("body")`: attributes and children of the first `body`
element in document (preorder) order. -/
def find_body : HForest → Option (List (Str × Str) × HForest)
  | .nil => none
  | .cons (.tag n a ch) rest =>
    if n = str "body" then some (a, ch)
    else
      match find_body ch with
      | some r => some r
      | none => find_body rest
  | .cons _ rest => find_body rest

/-- `soup.find("img")`: attribute dict of the first `img` element. -/
def find_img : HForest → Option (List (Str × Str))
  | .nil => none
  | .cons (.tag n a ch) rest =>
    if n = str "img" then some a
    else
      match find_img ch with
      | some r => some r
      | none => find_img rest
  | .cons _ rest => find_img rest

/-! ## EPUB container model (the slice of ebooklib the pipeline reads) -/

/-- Media-type classification of a manifest item
(`ebooklib.ITEM_DOCUMENT`, `ebooklib.ITEM_IMAGE`, anything else). -/
inductive ItemType where
  | document
  | image
  | other
deriving DecidableEq

/-- A manifest item.  `document` is the parsed HTML for
document-classified items (`get_content` + BeautifulSoup, modelled at
tree level); `bytes` is the raw content for image items. -/
structure ManifestItem where
  id : Str
  name : Str
  itemType : ItemType
  document : HForest := .nil
  bytes : List Nat := []

mutual
/-- A raw TOC node as ebooklib hands it to `parse_toc_recursive`: a
`(Section, [children])` tuple, a `Link`, a childless `Section`, or any
other value (which the parser skips). -/
inductive TocItem where
  | branch (title href : Str) (children : TocList)
  | link (title href uid : Str)
  | sect (title href : Str)
  | other
/-- A sequence of raw TOC nodes (inlined list, as with `HForest`). -/
inductive TocList where
  | nil
  | cons (i : TocItem) (rest : TocList)
end

/-- Build a `TocList` from a list of items (for concrete examples). -/
def TocList.ofList : List TocItem → TocList
  | [] => .nil
  | i :: rest => .cons i (TocList.ofList rest)

/-- The EPUB container as read by `epub.read_epub`: ordered manifest,
spine of `(idref, linear)` pairs, raw TOC, and the
`get_metadata("OPF", "cover")` entries (value plus attribute dict). -/
structure EBook where
  items : List ManifestItem
  spine : List (Str × Bool)
  toc : TocList
  opfCoverMeta : List (Str × List (Str × Str)) := []

/-- `book.get_item_with_id`: first manifest item with the given id. -/
def get_item_with_id (eb : EBook) (iid : Str) : Option ManifestItem :=
  eb.items.find? (fun it => decide (it.id = iid))

/-! ## Output data model -/

/-- A logical entry in the navigation sidebar (dataclass `TOCEntry`). -/
structure TOCEntry where
  title : Str
  href : Str
  file_href : Str
  anchor : Str
  children : List TOCEntry

/-- A physical spine file (dataclass `ChapterContent`).  `content` is
kept as the extracted body forest (the code stores its serialization). -/
structure ChapterContent where
  id : Str
  href : Str
  title : Str
  content : HForest
  text : Str
  order : Nat

/-- The master object (dataclass `Book`); the metadata block is not
modelled since no claim touches it. -/
structure Book where
  spine : List ChapterContent
  toc : List TOCEntry
  images : List (Str × Str)
  source_file : Str
  processed_at : Str
  version : Str
  cover_image : Option Str

/-! ## TOC parsing -/

/-- `href.split("#")[0]` as computed in `parse_toc_recursive`. -/
def fileHrefOf (href : Str) : Str := (splitOnChar '#' href).getD 0 []

/-- `href.split("#")[1] if "#" in href else ""` of `parse_toc_recursive`. -/
def anchorOf (href : Str) : Str :=
  if href.contains '#' then (splitOnChar '#' href).getD 1 [] else []

/-- `parse_toc_recursive`: tuples recurse, `Link` and bare `Section`
become leaves, anything else is skipped.  The `depth` argument is
threaded exactly as in the source (where it is never consulted). -/
def parse_toc_recursive : TocList → Nat → List TOCEntry
  | .nil, _ => []
  | .cons (.branch t h ch) rest, depth =>
    { title := t, href := h, file_href := fileHrefOf h, anchor := anchorOf h,
      children := parse_toc_recursive ch (depth + 1) } :: parse_toc_recursive rest depth
  | .cons (.link t h _) rest, depth =>
    { title := t, href := h, file_href := fileHrefOf h, anchor := anchorOf h,
      children := [] } :: parse_toc_recursive rest depth
  | .cons (.sect t h) rest, depth =>
    { title := t, href := h, file_href := fileHrefOf h, anchor := anchorOf h,
      children := [] } :: parse_toc_recursive rest depth
  | .cons .other rest, depth => parse_toc_recursive rest depth

/-- The title built by `get_fallback_toc` for one item:
`name.replace(".html", "").replace(".xhtml", "").replace("_", " ").title()`. -/
def fallbackTitle (name : Str) : Str :=
  pyTitle (replaceAll (str "_") (str " ")
    (replaceAll (str ".xhtml") [] (replaceAll (str ".html") [] name)))

/-- The manifest loop of `get_fallback_toc`. -/
def fallbackAux : List ManifestItem → List TOCEntry
  | [] => []
  | it :: rest =>
    if it.itemType = ItemType.document then
      { title := fallbackTitle it.name, href := it.name, file_href := it.name,
        anchor := [], children := [] } :: fallbackAux rest
    else fallbackAux rest

/-- `get_fallback_toc`: one flat entry per document manifest item. -/
def get_fallback_toc (eb : EBook) : List TOCEntry := fallbackAux eb.items

/-! ## Image extraction (process_epub step 4) -/

/-- The local relative path an image item is materialized under:
`images/` plus the sanitized basename of its internal name. -/
def relPathOf (it : ManifestItem) : Str :=
  str "images/" ++ sanitizeName (basename it.name)

/-- process_epub step 4: walk the manifest; for every image item write
its bytes under `images/<sanitized basename>` and register that
relative path under both the full internal path and the bare basename.
`m` is the growing `image_map`, `fs` the files written so far (keyed by
the path relative to the output directory). -/
def extract_images :
    List ManifestItem → List (Str × Str) → List (Str × List Nat) →
    List (Str × Str) × List (Str × List Nat)
  | [], m, fs => (m, fs)
  | it :: rest, m, fs =>
    if it.itemType = ItemType.image then
      let original_fname := basename it.name
      let rel_path := str "images/" ++ sanitizeName original_fname
      extract_images rest
        (dictSet (dictSet m it.name rel_path) original_fname rel_path)
        (dictSet fs rel_path it.bytes)
    else extract_images rest m fs

/-! ## Chapter processing (process_epub step 6) -/

/-- The cleaned soup of one spine document: images rewritten (6A), then
`clean_html_content` (6B). -/
def chapterSoup (image_map : List (Str × Str)) (doc : HForest) : HForest :=
  clean_html_content (rewriteImgs image_map doc)

/-- Steps 6A-6D for one document: returns the stored `content` (the
body's children if a `body` element exists, else the whole soup) and
the stored `text` (plain text of the whole cleaned soup). -/
def processDoc (image_map : List (Str × Str)) (doc : HForest) : HForest × Str :=
  let soup := chapterSoup image_map doc
  let content :=
    match find_body soup with
    | some (_, ch) => ch
    | none => soup
  (content, extract_plain_text soup)

/-- `f"Section {i + 1}"`, the synthetic chapter title. -/
def sectionTitle (i : Nat) : Str := str "Section " ++ (toString (i + 1)).data

/-- The spine loop of process_epub step 6: `i` is the running
`enumerate` index; dangling references and non-document items are
skipped. -/
def processSpineAux (eb : EBook) (image_map : List (Str × Str)) :
    List (Str × Bool) → Nat → List ChapterContent
  | [], _ => []
  | (item_id, _linear) :: rest, i =>
    match get_item_with_id eb item_id with
    | none => processSpineAux eb image_map rest (i + 1)
    | some item =>
      if item.itemType = ItemType.document then
        { id := item_id, href := item.name, title := sectionTitle i,
          content := (processDoc image_map item.document).1,
          text := (processDoc image_map item.document).2,
          order := i } :: processSpineAux eb image_map rest (i + 1)
      else processSpineAux eb image_map rest (i + 1)

/-! ## Cover detection (detect_cover_image) -/

/-- Method 1: the declared OPF cover, if its id resolves to a manifest
item whose name is a key of the image map. -/
def coverMethod1 (eb : EBook) (image_map : List (Str × Str)) : Option Str :=
  match eb.opfCoverMeta with
  | [] => none
  | (_, attrs) :: _ =>
    match (if attrs = [] then none else dictGet attrs (str "content")) with
    | none => none
    | some cover_id =>
      if cover_id = [] then none
      else
        match get_item_with_id eb cover_id with
        | none => none
        | some cover_item => dictGet image_map cover_item.name

/-- Python's substring test `needle in hay`. -/
def strIn (needle : Str) : Str → Bool
  | [] => needle.isEmpty
  | c :: rest => needle.isPrefixOf (c :: rest) || strIn needle rest

/-- Method 2: first image-map entry whose original key contains the
substring `cover`, case-insensitively. -/
def coverMethod2 : List (Str × Str) → Option Str
  | [] => none
  | (original_path, local_path) :: rest =>
    if strIn (str "cover") (original_path.map Char.toLower) then some local_path
    else coverMethod2 rest

/-- Method 3: in the first document-classified manifest item only, find
the first `img` element and resolve its decoded `src`, else the
basename, through the image map. -/
def coverMethod3 (image_map : List (Str × Str)) : List ManifestItem → Option Str
  | [] => none
  | it :: rest =>
    if it.itemType = ItemType.document then
      match find_img it.document with
      | none => none
      | some attrs =>
        if (dictGet attrs (str "src")).getD [] = [] then none
        else
          match dictGet image_map (pyUnquote ((dictGet attrs (str "src")).getD [])) with
          | some p => some p
          | none => dictGet image_map (basename (pyUnquote ((dictGet attrs (str "src")).getD [])))
    else coverMethod3 image_map rest

/-- `detect_cover_image`: the three-tier cover heuristic. -/
def detect_cover_image (eb : EBook) (image_map : List (Str × Str)) : Option Str :=
  match coverMethod1 eb image_map with
  | some p => some p
  | none =>
    match coverMethod2 image_map with
    | some p => some p
    | none => coverMethod3 image_map eb.items

/-! ## The whole pipeline (process_epub) -/

/-- `process_epub` (metadata extraction and pickling aside): build the
image map, the TOC (with spine fallback when it is empty), the spine
chapters, detect the cover, and assemble the `Book`.  `epub_path` and
`now` stand for the source path and `datetime.now().isoformat()`. -/
def process_epub (eb : EBook) (epub_path now : Str) : Book :=
  let image_map := (extract_images eb.items [] []).1
  let toc0 := parse_toc_recursive eb.toc 0
  let toc_structure := if toc0.isEmpty then get_fallback_toc eb else toc0
  let spine_chapters := processSpineAux eb image_map eb.spine 0
  let cover_image := detect_cover_image eb image_map
  { spine := spine_chapters, toc := toc_structure, images := image_map,
    source_file := basename epub_path, processed_at := now,
    version := str "3.0", cover_image := cover_image }

/-! ## Helper lemmas: dictionaries -/

theorem dictGet_dictSet_self {α : Type} (m : List (Str × α)) (k : Str) (v : α) :
    dictGet (dictSet m k v) k = some v := by
  induction m with
  | nil => simp [dictSet, dictGet]
  | cons p rest ih =>
    obtain ⟨k', v'⟩ := p
    by_cases h : k' = k <;> simp [dictSet, dictGet, h, ih]

theorem dictGet_dictSet_ne {α : Type} (m : List (Str × α)) (k k' : Str) (v : α)
    (h : k' ≠ k) : dictGet (dictSet m k v) k' = dictGet m k' := by
  induction m with
  | nil => simp [dictSet, dictGet, Ne.symm h]
  | cons p rest ih =>
    obtain ⟨k₀, v₀⟩ := p
    by_cases h₀ : k₀ = k
    · subst h₀
      simp [dictSet, dictGet, Ne.symm h]
    · simp [dictSet, dictGet, h₀, ih]

theorem dictGet_mem_values {α : Type} (m : List (Str × α)) (k : Str) (v : α)
    (h : dictGet m k = some v) : v ∈ m.map Prod.snd := by
  induction m with
  | nil => simp [dictGet] at h
  | cons p rest ih =>
    obtain ⟨k₀, v₀⟩ := p
    by_cases h₀ : k₀ = k <;> simp only [dictGet, if_pos, if_neg, h₀, if_true, if_false,
      Option.some.injEq, reduceIte] at h
    · rw [List.map_cons]
      subst h
      exact List.mem_cons_self _ _
    · exact List.mem_cons_of_mem _ (ih h)

/-! ## Helper lemmas: `splitOnChar` -/

theorem splitOnChar_ne_nil (sep : Char) (s : Str) : splitOnChar sep s ≠ [] := by
  cases s with
  | nil => simp [splitOnChar]
  | cons c cs =>
    by_cases h : c = sep
    · simp [splitOnChar, h]
    · simp only [splitOnChar, if_neg h]
      split <;> simp

theorem splitOnChar_getD_zero (sep : Char) (s : Str) :
    (splitOnChar sep s).getD 0 [] = s.takeWhile (· ≠ sep) := by
  induction s with
  | nil => simp [splitOnChar]
  | cons c cs ih =>
    by_cases h : c = sep
    · subst h
      simp [splitOnChar, List.takeWhile_cons]
    · simp only [splitOnChar, if_neg h]
      rcases hw : splitOnChar sep cs with _ | ⟨w, ws⟩
      · exact absurd hw (splitOnChar_ne_nil sep cs)
      · rw [hw] at ih
        simp only [List.getD_cons_zero] at ih ⊢
        simp [List.takeWhile_cons, h, ih]

theorem splitOnChar_getD_one (sep : Char) (s : Str) (hmem : sep ∈ s) :
    (splitOnChar sep s).getD 1 [] =
      ((s.dropWhile (· ≠ sep)).tail).takeWhile (· ≠ sep) := by
  induction s with
  | nil => simp at hmem
  | cons c cs ih =>
    by_cases h : c = sep
    · subst h
      rw [show splitOnChar c (c :: cs) = [] :: splitOnChar c cs from by simp [splitOnChar]]
      rw [List.getD_cons_succ, splitOnChar_getD_zero]
      simp [List.dropWhile_cons]
    · have hmem' : sep ∈ cs := by
        cases hmem with
        | head => exact absurd rfl h
        | tail _ h' => exact h'
      simp only [splitOnChar, if_neg h]
      rcases hw : splitOnChar sep cs with _ | ⟨w, ws⟩
      · exact absurd hw (splitOnChar_ne_nil sep cs)
      · rw [hw] at ih
        have hih := ih hmem'
        simp only [List.getD_cons_succ, List.getD_cons_zero] at hih ⊢
        simpa [List.dropWhile_cons, h] using hih

end Reader3

namespace Reader3

/-- C5 counterexample input: a navigation href with two `#` marks. -/
def c5href : Str := str "chap1.html#sec2#extra"

/-- C5: the claim states the anchor is the whole substring after the
first `#`; on `"chap1.html#sec2#extra"` the code produces only the
segment between the first and second `#`. -/
theorem c5_counterexample :
    (parse_toc_recursive (.cons (.link (str "t") c5href (str "u")) .nil) 0).map
        (fun e => e.anchor) = [str "sec2"] ∧
      (c5href.dropWhile (· ≠ '#')).tail = str "sec2#extra" ∧
      str "sec2" ≠ str "sec2#extra" := by
  refine ⟨by decide, by decide, by decide⟩

/-- The split the claim describes, established for the expressions
`parse_toc_recursive` computes on every node shape. -/
theorem fileHref_anchor_spec (h : Str) :
    fileHrefOf h = h.takeWhile (· ≠ '#') ∧
    anchorOf h =
      (if '#' ∈ h then ((h.dropWhile (· ≠ '#')).tail).takeWhile (· ≠ '#') else []) := by
  refine ⟨splitOnChar_getD_zero '#' h, ?_⟩
  unfold anchorOf
  by_cases hmem : '#' ∈ h
  · rw [if_pos (List.elem_iff.mpr hmem), if_pos hmem, splitOnChar_getD_one _ _ hmem]
  · rw [if_neg (fun hc => hmem (List.elem_iff.mp hc)), if_neg hmem]

/-- `p` holds of every entry of a TOC forest, nested children included. -/
def entriesAll (p : TOCEntry → Prop) : List TOCEntry → Prop
  | [] => True
  | ⟨t, h, fh, a, ch⟩ :: rest =>
    p ⟨t, h, fh, a, ch⟩ ∧ entriesAll p ch ∧ entriesAll p rest

theorem entriesAll_nil (p : TOCEntry → Prop) : entriesAll p [] := by
  rw [entriesAll]
  trivial

/-- C5 (amended): every `TOCEntry` produced by `parse_toc_recursive` —
at any nesting depth and from any node shape (a `(Section, children)`
tuple, a `Link`, or a bare `Section`) — has `file_href` equal to the
substring of its href before the first `#`, and `anchor` equal to the
`#`-free segment immediately after the first `#` (what follows a
second `#` is discarded), or the empty string when the href has no
`#`.  The spec's two single-`#` examples satisfy this rule. -/
theorem c5_href_split (l : TocList) (d : Nat) :
    entriesAll (fun e =>
      e.file_href = e.href.takeWhile (· ≠ '#') ∧
      e.anchor =
        (if '#' ∈ e.href then ((e.href.dropWhile (· ≠ '#')).tail).takeWhile (· ≠ '#') else []))
      (parse_toc_recursive l d) := by
  induction l, d using parse_toc_recursive.induct with
  | case1 _ => simp [parse_toc_recursive, entriesAll]
  | case2 t h ch rest depth ih1 ih2 =>
    rw [parse_toc_recursive, entriesAll]
    exact ⟨fileHref_anchor_spec h, ih1, ih2⟩
  | case3 t h u rest depth ih =>
    rw [parse_toc_recursive, entriesAll]
    exact ⟨fileHref_anchor_spec h, entriesAll_nil _, ih⟩
  | case4 t h rest depth ih =>
    rw [parse_toc_recursive, entriesAll]
    exact ⟨fileHref_anchor_spec h, entriesAll_nil _, ih⟩
  | case5 rest depth ih =>
    rw [parse_toc_recursive]
    exact ih

/-! ## Image extraction lemmas (C9, C2) -/

theorem mem_pyStrip {c : Char} {s : Str} (h : c ∈ pyStrip s) : c ∈ s := by
  unfold pyStrip at h
  rw [List.mem_reverse] at h
  have h1 : c ∈ (s.dropWhile Char.isWhitespace).reverse :=
    (List.dropWhile_sublist _).mem h
  rw [List.mem_reverse] at h1
  exact (List.dropWhile_sublist _).mem h1

theorem sanitizeName_all (s : Str) :
    (sanitizeName s).all
      (fun c => c.isAlpha || c.isDigit || c == '.' || c == '_' || c == '-') = true := by
  rw [List.all_eq_true]
  intro c hc
  simpa using List.of_mem_filter (mem_pyStrip hc)

/-- C9: when the extraction loop reaches an image item, it registers
exactly two keys for it — the full internal path and the bare
basename — both mapped, at that moment, to the same value, and that
value is `images/` followed by the sanitized basename, which contains
only alphanumerics and the characters `.`, `_`, `-`. -/
theorem c9_image_map_insertion (m : List (Str × Str)) (fs : List (Str × List Nat))
    (it : ManifestItem) (rest : List ManifestItem)
    (h : it.itemType = ItemType.image) :
    extract_images (it :: rest) m fs =
      extract_images rest
        (dictSet (dictSet m it.name (relPathOf it)) (basename it.name) (relPathOf it))
        (dictSet fs (relPathOf it) it.bytes) ∧
    dictGet (dictSet (dictSet m it.name (relPathOf it)) (basename it.name) (relPathOf it))
        it.name = some (relPathOf it) ∧
    dictGet (dictSet (dictSet m it.name (relPathOf it)) (basename it.name) (relPathOf it))
        (basename it.name) = some (relPathOf it) ∧
    relPathOf it = str "images/" ++ sanitizeName (basename it.name) ∧
    (sanitizeName (basename it.name)).all
      (fun c => c.isAlpha || c.isDigit || c == '.' || c == '_' || c == '-') = true := by
  refine ⟨by simp [extract_images, h, relPathOf], ?_, dictGet_dictSet_self _ _ _, rfl,
    sanitizeName_all _⟩
  by_cases hb : basename it.name = it.name
  · rw [hb, dictGet_dictSet_self]
  · rw [dictGet_dictSet_ne _ _ _ _ (fun hx => hb hx.symm), dictGet_dictSet_self]

/-- C9 witness item: internal path `a/b c?.png`; its basename
sanitizes to `bc.png` (the space and `?` are dropped). -/
def c9item : ManifestItem :=
  { id := str "i9", name := str "a/b c?.png", itemType := .image, bytes := [9] }

/-- C9 witness: the insertion-step theorem applied to a concrete item. -/
theorem c9_witness :
    c9item.itemType = ItemType.image ∧
    relPathOf c9item = str "images/bc.png" ∧
    dictGet (dictSet (dictSet [] c9item.name (relPathOf c9item))
        (basename c9item.name) (relPathOf c9item)) c9item.name = some (relPathOf c9item) := by
  refine ⟨rfl, by decide, (c9_image_map_insertion [] [] c9item [] rfl).2.1⟩

/-- C2 (amended): the file materialized at a local path `p` after image
extraction holds the bytes of the **last** image resource whose
sanitized name maps to `p`; earlier colliding resources are silently
overwritten, with no disambiguation. -/
theorem c2_last_write_wins (items : List ManifestItem) (m : List (Str × Str))
    (fs : List (Str × List Nat)) (p : Str) :
    dictGet (extract_images items m fs).2 p =
      match (items.filter (fun it =>
          decide (it.itemType = ItemType.image ∧ relPathOf it = p))).getLast? with
      | some it => some it.bytes
      | none => dictGet fs p := by
  induction items generalizing m fs with
  | nil => simp [extract_images]
  | cons it rest ih =>
    by_cases him : it.itemType = ItemType.image
    · rw [show extract_images (it :: rest) m fs =
          extract_images rest
            (dictSet (dictSet m it.name (relPathOf it)) (basename it.name) (relPathOf it))
            (dictSet fs (relPathOf it) it.bytes) from by simp [extract_images, him, relPathOf]]
      rw [ih]
      by_cases hrel : relPathOf it = p
      · subst hrel
        rw [List.filter_cons_of_pos (by simp [him])]
        rcases hfr : (rest.filter (fun it' =>
            decide (it'.itemType = ItemType.image ∧ relPathOf it' = relPathOf it))) with _ | ⟨x, xs⟩
        · rw [hfr]
          simpa using dictGet_dictSet_self fs (relPathOf it) it.bytes
        · rw [hfr, List.getLast?_cons_cons]
          cases hgl : (x :: xs).getLast? with
          | none => simp at hgl
          | some y => rfl
      · rw [List.filter_cons_of_neg (by simp [hrel])]
        cases (rest.filter (fun it' =>
            decide (it'.itemType = ItemType.image ∧ relPathOf it' = p))).getLast? with
        | none => exact dictGet_dictSet_ne _ _ _ _ (fun hx => hrel hx.symm)
        | some it' => rfl
    · rw [show extract_images (it :: rest) m fs = extract_images rest m fs from by
        simp [extract_images, him]]
      rw [ih, List.filter_cons_of_neg (by simp [him])]

/-- C2 counterexample inputs: two distinct image resources whose
basenames sanitize to the same local name `x.png`. -/
def c2item1 : ManifestItem :=
  { id := str "i1", name := str "a/x?.png", itemType := .image, bytes := [1] }

/-- Second colliding image resource (different path, different bytes). -/
def c2item2 : ManifestItem :=
  { id := str "i2", name := str "b/x!.png", itemType := .image, bytes := [2] }

/-- C2: the claim says two distinct resources never sanitize onto the
same local path; in the code both of these map to `images/x.png`, and
the second one's bytes silently replace the first one's file. -/
theorem c2_counterexample :
    c2item1.name ≠ c2item2.name ∧
    dictGet (extract_images [c2item1, c2item2] [] []).1 c2item1.name =
      some (str "images/x.png") ∧
    dictGet (extract_images [c2item1, c2item2] [] []).1 c2item2.name =
      some (str "images/x.png") ∧
    dictGet (extract_images [c2item1, c2item2] [] []).2 (str "images/x.png") = some [2] := by
  exact ⟨by decide, by decide, by decide, by decide⟩

/-! ## Spine order lemmas (C1) -/

/-- Whether a spine idref resolves to a document-classified item
(characterization used to state C1). -/
def resolvesToDoc (eb : EBook) (sid : Str) : Bool :=
  match get_item_with_id eb sid with
  | some it => decide (it.itemType = ItemType.document)
  | none => false

/-- The spine indices (0-based `enumerate` positions) whose references
resolve to document items, in order. -/
def docIndicesAux (eb : EBook) : List (Str × Bool) → Nat → List Nat
  | [], _ => []
  | (sid, _) :: rest, i =>
    if resolvesToDoc eb sid then i :: docIndicesAux eb rest (i + 1)
    else docIndicesAux eb rest (i + 1)

theorem processSpineAux_orders (eb : EBook) (image_map : List (Str × Str)) :
    ∀ (sp : List (Str × Bool)) (i : Nat),
      (processSpineAux eb image_map sp i).map (·.order) = docIndicesAux eb sp i := by
  intro sp
  induction sp with
  | nil => intro i; simp [processSpineAux, docIndicesAux]
  | cons q rest ih =>
    intro i
    obtain ⟨sid, lin⟩ := q
    cases hit : get_item_with_id eb sid with
    | none => simp [processSpineAux, docIndicesAux, resolvesToDoc, hit, ih]
    | some item =>
      by_cases hdoc : item.itemType = ItemType.document
      · simp [processSpineAux, docIndicesAux, resolvesToDoc, hit, hdoc, ih]
      · simp [processSpineAux, docIndicesAux, resolvesToDoc, hit, hdoc, ih]

theorem docIndicesAux_le (eb : EBook) :
    ∀ (sp : List (Str × Bool)) (i x : Nat), x ∈ docIndicesAux eb sp i → i ≤ x := by
  intro sp
  induction sp with
  | nil => intro i x hx; simp [docIndicesAux] at hx
  | cons q rest ih =>
    intro i x hx
    obtain ⟨sid, lin⟩ := q
    by_cases hr : resolvesToDoc eb sid
    · rw [docIndicesAux, if_pos hr] at hx
      rcases hx with _ | hx
      · exact le_refl _
      · exact le_of_lt (Nat.lt_of_succ_le (ih (i + 1) x (by assumption)))
    · rw [docIndicesAux, if_neg hr] at hx
      exact le_of_lt (Nat.lt_of_succ_le (ih (i + 1) x hx))

theorem docIndicesAux_chain (eb : EBook) :
    ∀ (sp : List (Str × Bool)) (i : Nat), List.Chain' (· < ·) (docIndicesAux eb sp i) := by
  intro sp
  induction sp with
  | nil => intro i; simp [docIndicesAux]
  | cons q rest ih =>
    intro i
    obtain ⟨sid, lin⟩ := q
    by_cases hr : resolvesToDoc eb sid
    · rw [docIndicesAux, if_pos hr]
      rw [List.chain'_cons']
      refine ⟨?_, ih (i + 1)⟩
      intro b hb
      have hble : i + 1 ≤ b :=
        docIndicesAux_le eb rest (i + 1) b (List.mem_of_mem_head? hb)
      omega
    · rw [docIndicesAux, if_neg hr]
      exact ih (i + 1)

theorem docIndicesAux_length (eb : EBook) :
    ∀ (sp : List (Str × Bool)) (i : Nat),
      (docIndicesAux eb sp i).length = (sp.filter (fun q => resolvesToDoc eb q.1)).length := by
  intro sp
  induction sp with
  | nil => intro i; simp [docIndicesAux]
  | cons q rest ih =>
    intro i
    obtain ⟨sid, lin⟩ := q
    by_cases hr : resolvesToDoc eb sid
    · simp [docIndicesAux, hr, List.filter_cons, ih]
    · simp [docIndicesAux, hr, List.filter_cons, ih]

/-- C1 (amended): `process_epub` produces exactly one chapter per spine
reference that resolves to a document-classified item, and each
chapter's `order` is the 0-based index of its reference **in the
spine** (the `enumerate` counter), so orders are strictly increasing —
but when a dangling or non-document reference is skipped, the
subsequent orders exceed the chapters' positions in the produced array
(and the first order exceeds 0 if the skip comes first). -/
theorem c1_spine_orders (eb : EBook) (epub_path now : Str) :
    ((process_epub eb epub_path now).spine.map (·.order)) = docIndicesAux eb eb.spine 0 ∧
    List.Chain' (· < ·) ((process_epub eb epub_path now).spine.map (·.order)) ∧
    (process_epub eb epub_path now).spine.length =
      (eb.spine.filter (fun q => resolvesToDoc eb q.1)).length := by
  have hmap : ((process_epub eb epub_path now).spine.map (·.order)) =
      docIndicesAux eb eb.spine 0 := by
    simp only [process_epub]
    exact processSpineAux_orders eb _ eb.spine 0
  refine ⟨hmap, ?_, ?_⟩
  · rw [hmap]
    exact docIndicesAux_chain eb eb.spine 0
  · have := congrArg List.length hmap
    rw [List.length_map] at this
    rw [this, docIndicesAux_length]

/-- C1 counterexample book: two document items and a spine whose middle
reference is dangling. -/
def c1book : EBook :=
  { items := [{ id := str "a", name := str "a.html", itemType := .document },
              { id := str "b", name := str "b.html", itemType := .document }],
    spine := [(str "a", true), (str "ghost", true), (str "b", true)],
    toc := .nil }

/-- C1: on a spine with a dangling middle reference the orders are
`[0, 2]`, not the array positions `[0, 1]` the claim requires. -/
theorem c1_counterexample :
    ((process_epub c1book [] []).spine.map (·.order)) = [0, 2] ∧
    List.range (process_epub c1book [] []).spine.length = [0, 1] ∧
    ([0, 2] : List Nat) ≠ [0, 1] := ⟨by decide, by decide, by decide⟩

/-! ## TOC depth lemmas (C3) -/

/-- Depth of a parsed TOC forest (0 for an empty forest). -/
def entriesDepth : List TOCEntry → Nat
  | [] => 0
  | ⟨_, _, _, _, ch⟩ :: rest => max (1 + entriesDepth ch) (entriesDepth rest)

/-- Depth of a raw TOC forest: branches nest, links and bare sections
are leaves, skipped items contribute nothing. -/
def tocItemsDepth : TocList → Nat
  | .nil => 0
  | .cons (.branch _ _ ch) rest => max (1 + tocItemsDepth ch) (tocItemsDepth rest)
  | .cons (.link _ _ _) rest => max 1 (tocItemsDepth rest)
  | .cons (.sect _ _) rest => max 1 (tocItemsDepth rest)
  | .cons .other rest => tocItemsDepth rest

theorem parse_toc_depth : ∀ (l : TocList) (d : Nat),
    entriesDepth (parse_toc_recursive l d) = tocItemsDepth l := by
  intro l d
  induction l, d using parse_toc_recursive.induct with
  | case1 _ => simp [parse_toc_recursive, tocItemsDepth, entriesDepth]
  | case2 t h ch rest depth ih1 ih2 =>
    simp [parse_toc_recursive, tocItemsDepth, entriesDepth, ih1, ih2]
  | case3 t h u rest depth ih =>
    simp [parse_toc_recursive, tocItemsDepth, entriesDepth, ih]
  | case4 t h rest depth ih =>
    simp [parse_toc_recursive, tocItemsDepth, entriesDepth, ih]
  | case5 rest depth ih =>
    simp [parse_toc_recursive, tocItemsDepth, entriesDepth, ih]

/-- A navigation chain nested `n + 1` levels deep (`n` branches around
one leaf section): input for the C3 counterexample. -/
def chainToc : Nat → TocItem
  | 0 => .sect (str "s") (str "s.html")
  | n + 1 => .branch (str "s") (str "s.html") (.cons (chainToc n) .nil)

theorem chainToc_depth : ∀ n : Nat, tocItemsDepth (.cons (chainToc n) .nil) = n + 1 := by
  intro n
  induction n with
  | zero => simp [chainToc, tocItemsDepth]
  | succ k ih =>
    simp only [chainToc, tocItemsDepth, ih]
    omega

/-- C3 (amended): TOC parsing imposes **no** depth cap: the `depth`
argument is threaded but never consulted, and the parse output
preserves the full nesting depth of the input at every depth — no
subtree is ever failed or dropped for being too deep.  (In the Python
runtime, input beyond the interpreter recursion limit would abort the
call, not drop a subtree.) -/
theorem c3_no_depth_cap (l : TocList) (d : Nat) :
    entriesDepth (parse_toc_recursive l d) = tocItemsDepth l :=
  parse_toc_depth l d

/-- C3: a navigation structure nested 601 levels (beyond the claimed
cap of about 500) is parsed in full — the output still has depth 601,
so no subtree was dropped. -/
theorem c3_counterexample :
    entriesDepth (parse_toc_recursive (.cons (chainToc 600) .nil) 0) = 601 ∧ 500 < 601 := by
  refine ⟨?_, by norm_num⟩
  rw [parse_toc_depth]
  exact chainToc_depth 600

/-! ## Fallback TOC (C7) -/

theorem fallbackAux_eq_filter_map (l : List ManifestItem) :
    fallbackAux l =
      (l.filter (fun it => decide (it.itemType = ItemType.document))).map
        (fun it => { title := fallbackTitle it.name, href := it.name,
                     file_href := it.name, anchor := [], children := [] }) := by
  induction l with
  | nil => simp [fallbackAux]
  | cons it rest ih =>
    by_cases h : it.itemType = ItemType.document
    · simp [fallbackAux, h, List.filter_cons, ih]
    · simp [fallbackAux, h, List.filter_cons, ih]

/-- C7 (amended): when the parsed navigation forest is empty, the
produced TOC has exactly one flat entry per document-classified
manifest item, in manifest order; each entry's title is the item's
filename with every occurrence of `.html` and `.xhtml` removed (not a
general extension strip), underscores replaced by spaces, and the
result Python-title-cased; href and file_href are the filename and the
anchor is empty. -/
theorem c7_fallback_toc (eb : EBook) (epub_path now : Str)
    (h : parse_toc_recursive eb.toc 0 = []) :
    (process_epub eb epub_path now).toc =
      (eb.items.filter (fun it => decide (it.itemType = ItemType.document))).map
        (fun it => { title := pyTitle (replaceAll (str "_") (str " ")
                       (replaceAll (str ".xhtml") [] (replaceAll (str ".html") [] it.name))),
                     href := it.name, file_href := it.name, anchor := [], children := [] }) := by
  simp only [process_epub, h, List.isEmpty_nil, if_true]
  rw [get_fallback_toc, fallbackAux_eq_filter_map]
  simp [fallbackTitle]

/-- C7 counterexample book: empty navigation, one document item whose
filename does not end in `.html`/`.xhtml`. -/
def c7book : EBook :=
  { items := [{ id := str "i1", name := str "notes.htm", itemType := .document }],
    spine := [], toc := .nil }

/-- The title rule exactly as the claim words it: strip the (final)
extension, replace underscores with spaces, title-case.  Used only to
exhibit the divergence from the code's behaviour. -/
def claimHumanize (name : Str) : Str :=
  pyTitle (replaceAll (str "_") (str " ")
    (if '.' ∈ name then ((name.reverse.dropWhile (· ≠ '.')).tail).reverse else name))

/-- C7: the code only deletes the substrings `.html`/`.xhtml`; on
`notes.htm` the produced fallback title is `Notes.Htm`, while the
claim's extension-stripping rule demands `Notes`. -/
theorem c7_counterexample :
    ((process_epub c7book [] []).toc.map (fun e => e.title)) = [str "Notes.Htm"] ∧
    claimHumanize (str "notes.htm") = str "Notes" ∧
    str "Notes.Htm" ≠ str "Notes" := ⟨by decide, by decide, by decide⟩

/-- C7 witness: the amended theorem applied to the concrete book. -/
theorem c7_witness :
    parse_toc_recursive c7book.toc 0 = [] ∧
    (process_epub c7book [] []).toc =
      (c7book.items.filter (fun it => decide (it.itemType = ItemType.document))).map
        (fun it => { title := pyTitle (replaceAll (str "_") (str " ")
                       (replaceAll (str ".xhtml") [] (replaceAll (str ".html") [] it.name))),
                     href := it.name, file_href := it.name, anchor := [], children := [] }) :=
  ⟨rfl, c7_fallback_toc c7book [] [] rfl⟩

/-! ## Cover detection (C6, C8) -/

/-- C6: when the book declares an explicit cover whose id resolves to a
manifest item present in the image map, `detect_cover_image` returns
that Tier 1 cover, even when a differently-named image key contains
the substring `cover` (a Tier 2 candidate). -/
theorem c6_tier1_wins (eb : EBook) (image_map : List (Str × Str))
    (v : Str) (attrs : List (Str × Str)) (restMeta : List (Str × List (Str × Str)))
    (hm : eb.opfCoverMeta = (v, attrs) :: restMeta)
    (hattrs : attrs ≠ []) (cid : Str)
    (hcid : dictGet attrs (str "content") = some cid) (hcne : cid ≠ [])
    (item : ManifestItem) (hitem : get_item_with_id eb cid = some item)
    (p : Str) (hp : dictGet image_map item.name = some p)
    (_htier2 : ∃ kv ∈ image_map,
      strIn (str "cover") (kv.1.map Char.toLower) = true ∧ kv.1 ≠ item.name) :
    detect_cover_image eb image_map = some p := by
  unfold detect_cover_image coverMethod1
  rw [hm]
  simp only [if_neg hattrs, hcid, if_neg hcne, hitem, hp]

/-- C6 witness book: a declared cover (`cov-id` → `imgs/mycvr.png`)
plus a distinct image whose key contains `cover`. -/
def c6book : EBook :=
  { items := [{ id := str "cov-id", name := str "imgs/mycvr.png", itemType := .image,
                bytes := [7] },
              { id := str "i2", name := str "imgs/cover_art.png", itemType := .image,
                bytes := [8] }],
    spine := [], toc := .nil,
    opfCoverMeta := [(str "", [(str "content", str "cov-id")])] }

/-- The image map of the C6 witness book (as `extract_images` builds it). -/
def c6map : List (Str × Str) :=
  [(str "imgs/mycvr.png", str "images/mycvr.png"),
   (str "mycvr.png", str "images/mycvr.png"),
   (str "imgs/cover_art.png", str "images/cover_art.png"),
   (str "cover_art.png", str "images/cover_art.png")]

/-- C6 witness: Tier 1 beats the present Tier 2 candidate. -/
theorem c6_witness :
    strIn (str "cover") ((str "imgs/cover_art.png").map Char.toLower) = true ∧
    detect_cover_image c6book c6map = some (str "images/mycvr.png") := by
  refine ⟨by decide, ?_⟩
  exact c6_tier1_wins c6book c6map (str "") [(str "content", str "cov-id")] []
    rfl (by decide) (str "cov-id") (by decide) (by decide)
    { id := str "cov-id", name := str "imgs/mycvr.png", itemType := .image, bytes := [7] }
    rfl (str "images/mycvr.png") (by decide)
    ⟨(str "imgs/cover_art.png", str "images/cover_art.png"), by decide, by decide, by decide⟩

theorem coverMethod1_mem (eb : EBook) (m : List (Str × Str)) (p : Str)
    (h : coverMethod1 eb m = some p) : p ∈ m.map Prod.snd := by
  unfold coverMethod1 at h
  split at h
  · exact Option.noConfusion h
  · split at h
    · exact Option.noConfusion h
    · split at h
      · exact Option.noConfusion h
      · split at h
        · exact Option.noConfusion h
        · exact dictGet_mem_values _ _ _ h

theorem coverMethod2_mem : ∀ (m : List (Str × Str)) (p : Str),
    coverMethod2 m = some p → p ∈ m.map Prod.snd := by
  intro m
  induction m with
  | nil => intro p h; exact Option.noConfusion h
  | cons kv rest ih =>
    intro p h
    obtain ⟨k, v⟩ := kv
    rw [coverMethod2] at h
    by_cases hc : strIn (str "cover") (k.map Char.toLower) = true
    · rw [if_pos hc] at h
      cases h
      exact List.mem_cons_self _ _
    · rw [if_neg hc] at h
      exact List.mem_cons_of_mem _ (ih p h)

theorem coverMethod3_mem (m : List (Str × Str)) :
    ∀ (items : List ManifestItem) (p : Str),
      coverMethod3 m items = some p → p ∈ m.map Prod.snd := by
  intro items
  induction items with
  | nil => intro p h; exact Option.noConfusion h
  | cons it rest ih =>
    intro p h
    rw [coverMethod3] at h
    split at h
    · split at h
      · exact Option.noConfusion h
      · split at h
        · exact Option.noConfusion h
        · split at h
          · rename_i hd
            cases h
            exact dictGet_mem_values _ _ _ hd
          · exact dictGet_mem_values _ _ _ h
    · exact ih p h

/-- C8: `detect_cover_image` returns nothing or a value stored in the
image map, and consequently the assembled `Book.cover_image`, when
present, is a value of the book's image asset map. -/
theorem c8_cover_in_map :
    (∀ (eb : EBook) (m : List (Str × Str)) (p : Str),
        detect_cover_image eb m = some p → p ∈ m.map Prod.snd) ∧
    (∀ (eb : EBook) (epub_path now p : Str),
        (process_epub eb epub_path now).cover_image = some p →
          p ∈ (process_epub eb epub_path now).images.map Prod.snd) := by
  have h1 : ∀ (eb : EBook) (m : List (Str × Str)) (p : Str),
      detect_cover_image eb m = some p → p ∈ m.map Prod.snd := by
    intro eb m p h
    unfold detect_cover_image at h
    split at h
    · cases h
      exact coverMethod1_mem eb m p (by assumption)
    · split at h
      · cases h
        exact coverMethod2_mem m p (by assumption)
      · exact coverMethod3_mem m eb.items p h
  refine ⟨h1, ?_⟩
  intro eb epub_path now p h
  simp only [process_epub] at h ⊢
  exact h1 eb _ p h

/-- C8 witness book: one image named `cover.png`, found by Tier 2. -/
def c8book : EBook :=
  { items := [{ id := str "c", name := str "cover.png", itemType := .image, bytes := [1] }],
    spine := [], toc := .nil }

/-- C8 witness: the assembled book's cover is a value of its image map. -/
theorem c8_witness :
    (process_epub c8book [] []).cover_image = some (str "images/cover.png") ∧
    str "images/cover.png" ∈ (process_epub c8book [] []).images.map Prod.snd :=
  ⟨by decide, c8_cover_in_map.2 c8book [] [] (str "images/cover.png") (by decide)⟩

/-! ## Whitespace normal form (C10) -/

/-- No two consecutive whitespace characters. -/
def noDoubleWs : Str → Bool
  | [] => true
  | [_] => true
  | a :: b :: t => !(a.isWhitespace && b.isWhitespace) && noDoubleWs (b :: t)

/-- The normal form C10 asserts for extracted text: no leading or
trailing whitespace, no two consecutive whitespace characters, and
every whitespace character is a single blank. -/
def wsNormal (s : Str) : Bool :=
  s.head?.all (fun c => !c.isWhitespace) &&
  s.getLast?.all (fun c => !c.isWhitespace) &&
  noDoubleWs s &&
  s.all (fun c => !c.isWhitespace || c == ' ')

theorem bool_and_intro {a b : Bool} (ha : a = true) (hb : b = true) : (a && b) = true := by
  simp [ha, hb]

theorem pySplitAux_good : ∀ (s acc : Str),
    (∀ c ∈ acc, c.isWhitespace = false) →
    ∀ w ∈ pySplitAux s acc, w ≠ [] ∧ ∀ c ∈ w, c.isWhitespace = false := by
  intro s
  induction s with
  | nil =>
    intro acc hacc w hw
    rw [pySplitAux] at hw
    by_cases ha : acc = []
    · simp [ha] at hw
    · rw [if_neg ha, List.mem_singleton] at hw
      subst hw
      exact ⟨by simpa using ha, fun c hc => hacc c (List.mem_reverse.mp hc)⟩
  | cons c cs ih =>
    intro acc hacc w hw
    rw [pySplitAux] at hw
    by_cases hws : c.isWhitespace
    · rw [if_pos hws] at hw
      by_cases ha : acc = []
      · rw [if_pos ha] at hw
        exact ih [] (by simp) w hw
      · rw [if_neg ha, List.mem_cons] at hw
        rcases hw with hw | hw
        · subst hw
          exact ⟨by simpa using ha, fun c hc => hacc c (List.mem_reverse.mp hc)⟩
        · exact ih [] (by simp) w hw
    · rw [if_neg hws] at hw
      refine ih (c :: acc) ?_ w hw
      intro x hx
      rw [List.mem_cons] at hx
      rcases hx with hx | hx
      · subst hx
        simpa using hws
      · exact hacc x hx

theorem pySplit_good (s : Str) :
    ∀ w ∈ pySplit s, w ≠ [] ∧ ∀ c ∈ w, c.isWhitespace = false :=
  pySplitAux_good s [] (by simp)

theorem noDoubleWs_cons (a : Char) (l : Str)
    (h1 : ∀ b ∈ l.head?, (a.isWhitespace && b.isWhitespace) = false)
    (h2 : noDoubleWs l = true) : noDoubleWs (a :: l) = true := by
  cases l with
  | nil => rfl
  | cons b t =>
    rw [noDoubleWs]
    exact bool_and_intro (by simp [h1 b (by simp)]) h2

theorem noDoubleWs_append_word : ∀ (w s : Str),
    (∀ c ∈ w, c.isWhitespace = false) → noDoubleWs s = true → noDoubleWs (w ++ s) = true := by
  intro w
  induction w with
  | nil => intro s _ hs; simpa using hs
  | cons c cw ih =>
    intro s hw hs
    rw [List.cons_append]
    refine noDoubleWs_cons c (cw ++ s) ?_
      (ih s (fun x hx => hw x (List.mem_cons_of_mem _ hx)) hs)
    intro b _
    simp [hw c (List.mem_cons_self _ _)]

theorem joinSep_ne_nil (c : Char) (w : Str) (t : List Str) (hw : w ≠ []) :
    joinSep c (w :: t) ≠ [] := by
  cases t with
  | nil => simpa [joinSep] using hw
  | cons w' t' =>
    rw [show joinSep c (w :: w' :: t') = w ++ c :: joinSep c (w' :: t') from rfl]
    simp [hw]

theorem joinSep_head? (c : Char) (w : Str) (t : List Str) (hw : w ≠ []) :
    (joinSep c (w :: t)).head? = w.head? := by
  cases t with
  | nil => rfl
  | cons w' t' =>
    rcases w with _ | ⟨a, w⟩
    · exact absurd rfl hw
    · rfl

theorem joinSep_getLast? (c : Char) : ∀ (t : List Str) (w : Str),
    (∀ x ∈ t, x ≠ []) → (joinSep c (w :: t)).getLast? =
      (if t = [] then w.getLast? else (joinSep c t).getLast?) := by
  intro t
  induction t with
  | nil => intro w _; simp [joinSep]
  | cons w' t' ih =>
    intro w hne
    rw [show joinSep c (w :: w' :: t') = w ++ c :: joinSep c (w' :: t') from rfl]
    rw [List.getLast?_append_of_ne_nil w
      (show (c :: joinSep c (w' :: t')) ≠ [] by simp)]
    have h1 : (c :: joinSep c (w' :: t')).getLast? = (joinSep c (w' :: t')).getLast? := by
      have hne' : joinSep c (w' :: t') ≠ [] :=
        joinSep_ne_nil c w' t' (hne w' (List.mem_cons_self _ _))
      rcases hj : joinSep c (w' :: t') with _ | ⟨x, xs⟩
      · exact absurd hj hne'
      · rw [show (c :: x :: xs).getLast? = (x :: xs).getLast? from List.getLast?_cons_cons]
    rw [h1]
    simp

theorem allGood_onlySpace : ∀ (L : List Str),
    (∀ w ∈ L, ∀ c ∈ w, c.isWhitespace = false) →
    (joinSep ' ' L).all (fun c => !c.isWhitespace || c == ' ') = true := by
  intro L
  induction L with
  | nil => intro _; simp [joinSep]
  | cons w t ih =>
    intro hL
    cases t with
    | nil =>
      simp only [joinSep, List.all_eq_true]
      intro c hc
      simp [hL w (List.mem_cons_self _ _) c hc]
    | cons w' t' =>
      rw [show joinSep ' ' (w :: w' :: t') = w ++ ' ' :: joinSep ' ' (w' :: t') from rfl]
      rw [List.all_append]
      refine bool_and_intro ?_ ?_
      · rw [List.all_eq_true]
        intro c hc
        simp [hL w (List.mem_cons_self _ _) c hc]
      · rw [List.all_cons]
        exact bool_and_intro (by simp) (ih (fun x hx => hL x (List.mem_cons_of_mem _ hx)))

theorem joinSep_noDoubleWs : ∀ (L : List Str),
    (∀ w ∈ L, w ≠ [] ∧ ∀ c ∈ w, c.isWhitespace = false) →
    noDoubleWs (joinSep ' ' L) = true := by
  intro L
  induction L with
  | nil => intro _; simp [joinSep, noDoubleWs]
  | cons w t ih =>
    intro hL
    cases t with
    | nil =>
      have := noDoubleWs_append_word w []
        (fun c hc => (hL w (List.mem_cons_self _ _)).2 c hc) (by simp [noDoubleWs])
      simpa [joinSep] using this
    | cons w' t' =>
      rw [show joinSep ' ' (w :: w' :: t') = w ++ ' ' :: joinSep ' ' (w' :: t') from rfl]
      refine noDoubleWs_append_word w _
        (fun c hc => (hL w (List.mem_cons_self _ _)).2 c hc) ?_
      refine noDoubleWs_cons ' ' _ ?_ (ih (fun x hx => hL x (List.mem_cons_of_mem _ hx)))
      intro b hb
      rw [joinSep_head? ' ' w' t' (hL w' (by simp)).1] at hb
      have hbw : b ∈ w' := List.mem_of_mem_head? hb
      simp [(hL w' (by simp)).2 b hbw]

theorem wsNormal_joinSep (L : List Str)
    (hL : ∀ w ∈ L, w ≠ [] ∧ ∀ c ∈ w, c.isWhitespace = false) :
    wsNormal (joinSep ' ' L) = true := by
  unfold wsNormal
  refine bool_and_intro (bool_and_intro (bool_and_intro ?_ ?_) ?_) ?_
  · -- head
    cases L with
    | nil => simp [joinSep]
    | cons w t =>
      rw [joinSep_head? ' ' w t (hL w (by simp)).1]
      rcases hh : w.head? with _ | a
      · simp
      · have : a ∈ w := List.mem_of_mem_head? (by simp [hh])
        simp [(hL w (by simp)).2 a this]
  · -- last
    induction L with
    | nil => simp [joinSep]
    | cons w t iht =>
      rw [joinSep_getLast? ' ' t w (fun x hx => (hL x (List.mem_cons_of_mem _ hx)).1)]
      by_cases ht : t = []
      · rw [if_pos ht]
        rcases hh : w.getLast? with _ | a
        · simp
        · have : a ∈ w := List.mem_of_mem_getLast? hh
          simp [(hL w (by simp)).2 a this]
      · rw [if_neg ht]
        rcases t with _ | ⟨w', t'⟩
        · exact absurd rfl ht
        · exact iht (fun x hx => hL x (List.mem_cons_of_mem _ hx))
  · exact joinSep_noDoubleWs L hL
  · exact allGood_onlySpace L (fun w hw => (hL w hw).2)

/-- The stored chapter text is the plain-text extraction of the
cleaned soup (second component of `processDoc`). -/
theorem processDoc_snd (m : List (Str × Str)) (doc : HForest) :
    (processDoc m doc).2 = extract_plain_text (chapterSoup m doc) := rfl

/-- C10: `extract_plain_text` output has no leading or trailing
whitespace, no two consecutive whitespace characters, and every
whitespace character is a single blank; consequently every chapter
text stored by `process_epub` satisfies this normal form. -/
theorem c10_text_normal_form :
    (∀ ns : HForest, wsNormal (extract_plain_text ns) = true) ∧
    (∀ (eb : EBook) (epub_path now : Str),
      ((process_epub eb epub_path now).spine.all (fun ch => wsNormal ch.text)) = true) := by
  have h1 : ∀ ns : HForest, wsNormal (extract_plain_text ns) = true := by
    intro ns
    unfold extract_plain_text
    exact wsNormal_joinSep _ (pySplit_good _)
  refine ⟨h1, ?_⟩
  intro eb epub_path now
  simp only [process_epub]
  have h2 : ∀ (sp : List (Str × Bool)) (i : Nat) (m : List (Str × Str)),
      (processSpineAux eb m sp i).all (fun ch => wsNormal ch.text) = true := by
    intro sp
    induction sp with
    | nil => intro i m; simp [processSpineAux]
    | cons q rest ih =>
      intro i m
      obtain ⟨sid, lin⟩ := q
      cases hit : get_item_with_id eb sid with
      | none =>
        simp only [processSpineAux, hit]
        exact ih (i + 1) m
      | some item =>
        simp only [processSpineAux, hit]
        by_cases hdoc : item.itemType = ItemType.document
        · rw [if_pos hdoc, List.all_cons]
          refine bool_and_intro ?_ (ih (i + 1) m)
          rw [processDoc_snd]
          exact h1 _
        · rw [if_neg hdoc]
          exact ih (i + 1) m
  exact h2 eb.spine 0 _

/-! ## Text around the body element (C4) -/

/-- Proof device for C4: split a forest's text contents around the
body element `find_body` locates — texts strictly before it, the
body's children when found, texts strictly after. -/
def bodySplit : HForest → List Str × Option HForest × List Str
  | .nil => ([], none, [])
  | .cons (.text s) rest =>
    match bodySplit rest with
    | (pre, ob, post) => (s :: pre, ob, post)
  | .cons (.comment s) rest =>
    match bodySplit rest with
    | (pre, ob, post) => (s :: pre, ob, post)
  | .cons (.tag n _ ch) rest =>
    if n = str "body" then ([], some ch, nodesTexts rest)
    else
      match bodySplit ch with
      | (pre, some b, post) => (pre, some b, post ++ nodesTexts rest)
      | (_, none, _) =>
        match bodySplit rest with
        | (pre2, ob, post2) => (nodesTexts ch ++ pre2, ob, post2)

theorem bodySplit_text_step (s : Str) (rest : HForest) (pre : List Str)
    (ob : Option HForest) (post : List Str) (hsplit : bodySplit rest = (pre, ob, post)) :
    bodySplit (.cons (.text s) rest) = (s :: pre, ob, post) := by
  rw [bodySplit, hsplit]

theorem bodySplit_comment_step (s : Str) (rest : HForest) (pre : List Str)
    (ob : Option HForest) (post : List Str) (hsplit : bodySplit rest = (pre, ob, post)) :
    bodySplit (.cons (.comment s) rest) = (s :: pre, ob, post) := by
  rw [bodySplit, hsplit]

theorem bodySplit_body_step (attrs : List (Str × Str)) (ch rest : HForest) :
    bodySplit (.cons (.tag (str "body") attrs ch) rest) = ([], some ch, nodesTexts rest) := by
  rw [bodySplit, if_pos rfl]

theorem bodySplit_tag_found_step (n : Str) (attrs : List (Str × Str)) (ch rest : HForest)
    (hbody : ¬n = str "body") (pre : List Str) (b : HForest) (post : List Str)
    (hsplit : bodySplit ch = (pre, some b, post)) :
    bodySplit (.cons (.tag n attrs ch) rest) = (pre, some b, post ++ nodesTexts rest) := by
  rw [bodySplit, if_neg hbody, hsplit]

theorem bodySplit_tag_missed_step (n : Str) (attrs : List (Str × Str)) (ch rest : HForest)
    (hbody : ¬n = str "body") (f0 s0 : List Str) (hch : bodySplit ch = (f0, none, s0))
    (pre : List Str) (ob : Option HForest) (post : List Str)
    (hrest : bodySplit rest = (pre, ob, post)) :
    bodySplit (.cons (.tag n attrs ch) rest) = (nodesTexts ch ++ pre, ob, post) := by
  rw [bodySplit, if_neg hbody, hch, hrest]

theorem bodySplit_texts : ∀ ns : HForest,
    nodesTexts ns = (bodySplit ns).1 ++
      (match (bodySplit ns).2.1 with
       | some b => nodesTexts b
       | none => []) ++ (bodySplit ns).2.2 ∧
    ((bodySplit ns).2.1 = none → (bodySplit ns).1 = nodesTexts ns ∧ (bodySplit ns).2.2 = []) := by
  intro ns
  induction ns using bodySplit.induct with
  | case1 => simp [bodySplit, nodesTexts]
  | case2 s rest pre ob post hsplit ih =>
    rw [bodySplit_text_step s rest pre ob post hsplit]
    rw [hsplit] at ih
    obtain ⟨ih1, ih2⟩ := ih
    simp only at ih1 ih2 ⊢
    rw [show nodesTexts (.cons (.text s) rest) = s :: nodesTexts rest from rfl]
    constructor
    · rw [ih1]; simp
    · intro hnone
      obtain ⟨ha, hb⟩ := ih2 hnone
      simp [ha, hb]
  | case3 s rest pre ob post hsplit ih =>
    rw [bodySplit_comment_step s rest pre ob post hsplit]
    rw [hsplit] at ih
    obtain ⟨ih1, ih2⟩ := ih
    simp only at ih1 ih2 ⊢
    rw [show nodesTexts (.cons (.comment s) rest) = s :: nodesTexts rest from rfl]
    constructor
    · rw [ih1]; simp
    · intro hnone
      obtain ⟨ha, hb⟩ := ih2 hnone
      simp [ha, hb]
  | case4 attrs ch rest =>
    rw [bodySplit_body_step attrs ch rest]
    rw [show nodesTexts (.cons (.tag (str "body") attrs ch) rest) =
      nodesTexts ch ++ nodesTexts rest from rfl]
    simp
  | case5 n attrs ch rest hbody pre b post hsplit ihch =>
    rw [bodySplit_tag_found_step n attrs ch rest hbody pre b post hsplit]
    rw [hsplit] at ihch
    obtain ⟨ih1, _⟩ := ihch
    simp only at ih1 ⊢
    rw [show nodesTexts (.cons (.tag n attrs ch) rest) = nodesTexts ch ++ nodesTexts rest
      from rfl]
    constructor
    · rw [ih1]; simp
    · intro hnone
      simp at hnone
  | case6 n attrs ch rest hbody f0 s0 hch pre ob post hrest ihch ihrest =>
    rw [bodySplit_tag_missed_step n attrs ch rest hbody f0 s0 hch pre ob post hrest]
    rw [hch] at ihch
    rw [hrest] at ihrest
    obtain ⟨ihr1, ihr2⟩ := ihrest
    simp only at ihr1 ihr2 ⊢
    rw [show nodesTexts (.cons (.tag n attrs ch) rest) = nodesTexts ch ++ nodesTexts rest
      from rfl]
    constructor
    · rw [ihr1]; simp
    · intro hnone
      obtain ⟨ha, hb⟩ := ihr2 hnone
      simp [ha, hb]

theorem bodySplit_find_body : ∀ ns : HForest,
    (bodySplit ns).2.1 = (find_body ns).map Prod.snd := by
  intro ns
  induction ns using bodySplit.induct with
  | case1 => simp [bodySplit, find_body]
  | case2 s rest pre ob post hsplit ih =>
    rw [bodySplit_text_step s rest pre ob post hsplit]
    rw [hsplit] at ih
    simpa [find_body] using ih
  | case3 s rest pre ob post hsplit ih =>
    rw [bodySplit_comment_step s rest pre ob post hsplit]
    rw [hsplit] at ih
    simpa [find_body] using ih
  | case4 attrs ch rest =>
    rw [bodySplit_body_step attrs ch rest]
    rw [find_body, if_pos rfl]
    rfl
  | case5 n attrs ch rest hbody pre b post hsplit ihch =>
    rw [bodySplit_tag_found_step n attrs ch rest hbody pre b post hsplit]
    rw [hsplit] at ihch
    simp only at ihch
    rw [find_body, if_neg hbody]
    cases hfb : find_body ch with
    | none => rw [hfb] at ihch; simp at ihch
    | some r =>
      rw [hfb] at ihch
      simp_all
  | case6 n attrs ch rest hbody f0 s0 hch pre ob post hrest ihch ihrest =>
    rw [bodySplit_tag_missed_step n attrs ch rest hbody f0 s0 hch pre ob post hrest]
    rw [hch] at ihch
    rw [hrest] at ihrest
    simp only at ihch ihrest
    rw [find_body, if_neg hbody]
    cases hfb : find_body ch with
    | none => simpa [hfb] using ihrest
    | some r => rw [hfb] at ihch; simp at ihch

/-! ## `pySplit` of a space-joined list (C4) -/

theorem pySplitAux_ws_append (c : Char) (hc : c.isWhitespace = true) :
    ∀ (a acc b : Str),
      pySplitAux (a ++ c :: b) acc = pySplitAux a acc ++ pySplitAux b [] := by
  intro a
  induction a with
  | nil =>
    intro acc b
    rw [List.nil_append]
    rw [show pySplitAux (c :: b) acc =
        if acc = [] then pySplitAux b [] else acc.reverse :: pySplitAux b [] from by
      rw [pySplitAux, if_pos hc]]
    by_cases ha : acc = []
    · rw [if_pos ha, show pySplitAux [] acc = [] from by rw [pySplitAux, if_pos ha]]
      rw [List.nil_append]
    · rw [if_neg ha, show pySplitAux [] acc = [acc.reverse] from by rw [pySplitAux, if_neg ha]]
      rw [List.singleton_append]
  | cons x a' ih =>
    intro acc b
    rw [List.cons_append, pySplitAux]
    by_cases hx : x.isWhitespace
    · rw [if_pos hx]
      by_cases ha : acc = []
      · rw [if_pos ha, ih, show pySplitAux (x :: a') acc = pySplitAux a' [] from by
          rw [pySplitAux, if_pos hx, if_pos ha]]
      · rw [if_neg ha, ih, show pySplitAux (x :: a') acc = acc.reverse :: pySplitAux a' []
          from by rw [pySplitAux, if_pos hx, if_neg ha]]
        simp
    · rw [if_neg hx, ih, show pySplitAux (x :: a') acc = pySplitAux a' (x :: acc) from by
        rw [pySplitAux, if_neg hx]]

theorem pySplit_joinSep : ∀ L : List Str,
    pySplit (joinSep ' ' L) = (L.map pySplit).flatten := by
  intro L
  induction L with
  | nil => simp [joinSep, pySplit, pySplitAux]
  | cons w t ih =>
    cases t with
    | nil => simp [joinSep]
    | cons w' t' =>
      rw [show joinSep ' ' (w :: w' :: t') = w ++ ' ' :: joinSep ' ' (w' :: t') from rfl]
      rw [pySplit, pySplitAux_ws_append ' ' (by decide) w [] (joinSep ' ' (w' :: t'))]
      rw [show pySplitAux (joinSep ' ' (w' :: t')) [] = pySplit (joinSep ' ' (w' :: t'))
        from rfl]
      rw [ih]
      simp [pySplit]

theorem flatten_all_nil {L : List Str} (h : ∀ s ∈ L, pySplit s = []) :
    ((L.map pySplit).flatten : List Str) = [] := by
  rw [List.flatten_eq_nil_iff]
  intro l hl
  rw [List.mem_map] at hl
  obtain ⟨s, hs, rfl⟩ := hl
  exact h s hs

/-- C4 (amended): re-running the plain-text extraction on a chapter's
stored content reproduces the stored text exactly whenever every text
node of the sanitized document lying **outside** the body element is
whitespace-only (in particular when there is no such text, or no body
element at all).  In general the stored text is the extraction of the
whole sanitized document, head included, while the stored content is
body-only, so non-blank head text breaks the claimed idempotence. -/
theorem c4_reextraction (image_map : List (Str × Str)) (doc : HForest)
    (hpre : ∀ s ∈ (bodySplit (chapterSoup image_map doc)).1, pySplit s = [])
    (hpost : ∀ s ∈ (bodySplit (chapterSoup image_map doc)).2.2, pySplit s = []) :
    extract_plain_text (processDoc image_map doc).1 = (processDoc image_map doc).2 := by
  rw [processDoc_snd]
  cases hfb : find_body (chapterSoup image_map doc) with
  | none =>
    have hcontent : (processDoc image_map doc).1 = chapterSoup image_map doc := by
      simp [processDoc, hfb]
    rw [hcontent]
  | some pr =>
    obtain ⟨a, ch⟩ := pr
    have hcontent : (processDoc image_map doc).1 = ch := by
      simp [processDoc, hfb]
    rw [hcontent]
    have hb : (bodySplit (chapterSoup image_map doc)).2.1 = some ch := by
      rw [bodySplit_find_body, hfb]
      rfl
    have hdecomp := (bodySplit_texts (chapterSoup image_map doc)).1
    rw [hb] at hdecomp
    simp only at hdecomp
    unfold extract_plain_text get_text
    rw [hdecomp, pySplit_joinSep, pySplit_joinSep, List.map_append, List.map_append,
      List.flatten_append, List.flatten_append, flatten_all_nil hpre, flatten_all_nil hpost,
      List.nil_append, List.append_nil]

/-- C4 counterexample document: a head whose title carries text. -/
def c4doc : HForest := .ofList
  [.tag (str "html") [] (.ofList
    [.tag (str "head") [] (.ofList
      [.tag (str "title") [] (.ofList [.text (str "T")])]),
     .tag (str "body") [] (.ofList
      [.tag (str "p") [] (.ofList [.text (str "Hi")])])])]

/-- C4: the stored text is extracted from the whole cleaned soup (head
included), the stored content is body-only, so re-extraction yields
`Hi` while the stored text is `T Hi` — the claim fails. -/
theorem c4_counterexample :
    (processDoc [] c4doc).2 = str "T Hi" ∧
    extract_plain_text (processDoc [] c4doc).1 = str "Hi" ∧
    str "T Hi" ≠ str "Hi" := ⟨by decide, by decide, by decide⟩

/-- C4 witness document: head text is whitespace-only. -/
def c4wdoc : HForest := .ofList
  [.tag (str "html") [] (.ofList
    [.tag (str "head") [] (.ofList [.text (str "  ")]),
     .tag (str "body") [] (.ofList
      [.tag (str "p") [] (.ofList [.text (str " Hi  there ")])])])]

/-- C4 witness: the amended theorem applied to a concrete document. -/
theorem c4_witness :
    (∀ s ∈ (bodySplit (chapterSoup [] c4wdoc)).1, pySplit s = []) ∧
    (∀ s ∈ (bodySplit (chapterSoup [] c4wdoc)).2.2, pySplit s = []) ∧
    extract_plain_text (processDoc [] c4wdoc).1 = (processDoc [] c4wdoc).2 :=
  ⟨by decide, by decide, c4_reextraction [] c4wdoc (by decide) (by decide)⟩

end Reader3
